import Mathlib

/-!
Shallow embedding of the dclog segmented commit log
(`internal/log/store.go`, `internal/log/segment.go`, and the log file
containing `Log.Append` / `Log.Read` / `Log.Truncate` etc.).

Bytes are `Nat`s below 256; Go `uint64` values are `Nat`s.  Overflow is
modelled explicitly (`% 2^64`, `% 2^32`, signed reinterpretation) at the
places where the Go code converts or can wrap: the `uint64` subtraction
`offset - baseOffset`, the `uint32(...)` cast in `segment.Append`, the
`int64(...)` reinterpretation in `segment.Read`, and the big-endian
length prefix written by `store.Append`.  Counters that cannot wrap below
astronomically large inputs (`store.size`, `nextOffset`) stay plain `Nat`;
theorems that depend on values fitting in a machine word carry the bound
as a hypothesis.  Fallible operations return `Option` / `Except`; a Go
`panic` from indexing an empty slice is modelled as `Option.none`.
-/

namespace Dclog

/-- `lenWidth` from store.go: byte width of the big-endian length prefix. -/
def lenWidth : Nat := 8

/-- `entWidth` from the index: byte width of one index entry
(u32 relative offset + u64 position). -/
def entWidth : Nat := 12

/-- Big-endian byte encoding of a `uint64`, as written by
`binary.Write(s.buf, enc, uint64(len(p)))` in store.go. -/
def uint64BE (n : Nat) : List Nat :=
  [n / 256 ^ 7 % 256, n / 256 ^ 6 % 256, n / 256 ^ 5 % 256, n / 256 ^ 4 % 256,
   n / 256 ^ 3 % 256, n / 256 ^ 2 % 256, n / 256 ^ 1 % 256, n % 256]

/-- Big-endian decoding, as done by `enc.Uint64(size)` in store.go. -/
def beToNat (bs : List Nat) : Nat := bs.foldl (fun a b => a * 256 + b) 0

/-- Go `uint64` subtraction `a - b` (wraps modulo `2^64`). -/
def sub64 (a b : Nat) : Nat := (a + (2 ^ 64 - b % 2 ^ 64)) % 2 ^ 64

/-- Reinterpret a `uint64` bit pattern as Go `int64`, as in
`int64(relativeOffset)` in segment.go. -/
def toInt64 (u : Nat) : Int :=
  if u % 2 ^ 64 < 2 ^ 63 then ((u % 2 ^ 64 : Nat) : Int)
  else ((u % 2 ^ 64 : Nat) : Int) - 2 ^ 64

/-- Modelled from the spec: the `Config` struct is referenced by the source
(`l.Config.Segment.MaxStoreBytes` ...) but its defining file is not under
src/.  Spec §6: "A config struct with a nested `Segment` group exposing
`MaxStoreBytes`, `MaxIndexBytes`, `InitialOffset`". -/
structure SegmentConfig where
  maxStoreBytes : Nat
  maxIndexBytes : Nat
  initialOffset : Nat
deriving DecidableEq

/-- Modelled from the spec: wrapper struct holding the nested `Segment`
config group. -/
structure Config where
  segment : SegmentConfig
deriving DecidableEq

/-- `api.Record`: an opaque byte payload plus the offset assigned on append. -/
structure Record where
  value : List Nat
  offset : Nat
deriving DecidableEq

/-- Modelled from the spec: the record envelope (`proto.Marshal`) is external
library code.  Spec §6: the envelope contains `{ value: bytes, offset: u64 }`
and "must round-trip byte-identical"; we use the concrete round-trip-faithful
encoding `offset` (8 bytes big-endian) followed by the raw value bytes. -/
def marshal (r : Record) : List Nat := uint64BE r.offset ++ r.value

/-- Modelled from the spec: inverse of `marshal` (`proto.Unmarshal`);
fails on a buffer too short to contain the offset field. -/
def unmarshal (b : List Nat) : Option Record :=
  if lenWidth ≤ b.length then some ⟨b.drop lenWidth, beToNat (b.take lenWidth)⟩
  else none

/-- store.go `store`: the file contents, the contents of the buffered
writer not yet flushed, and the running `size`.  (The `*os.File` and
mutex are I/O artefacts; reads see `file ++ buf` after a flush.) -/
structure Store where
  file : List Nat
  buf : List Nat
  size : Nat
deriving DecidableEq

/-- A freshly created store file (`newStore` on an empty file). -/
def emptyStore : Store := ⟨[], [], 0⟩

/-- store.go `Append`: record the length prefix then the payload into the
write buffer, return `(n_bytes_written, position, updated store)`. -/
def Store.append (s : Store) (p : List Nat) : Nat × Nat × Store :=
  let pos := s.size
  let w := lenWidth + p.length
  (w, pos, { s with buf := s.buf ++ uint64BE p.length ++ p, size := s.size + w })

/-- store.go: flushing the buffered writer moves buffered bytes into the file. -/
def Store.flush (s : Store) : Store := { s with file := s.file ++ s.buf, buf := [] }

/-- Read a length-prefixed entry out of raw file bytes: the two `ReadAt`
calls of store.go `Read`, each failing (`io.EOF`) when fewer bytes than
requested are available. -/
def readBytes (f : List Nat) (pos : Nat) : Option (List Nat) :=
  if pos + lenWidth ≤ f.length then
    if pos + lenWidth + beToNat ((f.drop pos).take lenWidth) ≤ f.length then
      some ((f.drop (pos + lenWidth)).take (beToNat ((f.drop pos).take lenWidth)))
    else none
  else none

/-- store.go `Read`: flush the write buffer, read the 8-byte big-endian
length at `pos`, then that many payload bytes at `pos + lenWidth`.
The flush only moves bytes between `buf` and `file` (contents and `size`
are unchanged), so the query is modelled as pure. -/
def Store.read (s : Store) (pos : Nat) : Option (List Nat) :=
  readBytes s.flush.file pos

/-- Modelled from the spec: index.go is not under src/ (only its test and
callers are).  Spec §4.2: a fixed-width, memory-mapped list of
`(rel_offset: u32, position: u64)` entries with a pre-allocated ceiling
`MaxIndexBytes`; `size` is the byte count of valid entries. -/
structure Index where
  entries : List (Nat × Nat)
  maxIndexBytes : Nat
deriving DecidableEq

/-- A freshly created index (no entries yet). -/
def emptyIndex (maxB : Nat) : Index := ⟨[], maxB⟩

/-- The index's logical byte size: 12 bytes per valid entry. -/
def Index.size (i : Index) : Nat := i.entries.length * entWidth

/-- Modelled from the spec, §4.2 `write`: "fails with an end-of-space
condition if `size + entWidth > MaxIndexBytes`", otherwise appends the
entry and grows `size` by `entWidth`.  The `u32` truncation of the
relative offset happens at the call site in `segment.Append`. -/
def Index.write (i : Index) (off pos : Nat) : Option Index :=
  if i.size + entWidth > i.maxIndexBytes then none
  else some { i with entries := i.entries ++ [(off, pos)] }

/-- Modelled from the spec, §4.2 `read`: "if `size == 0`, fails with
end-of-data.  If `i < 0`, it denotes the last entry: `i := (size / entWidth)
− 1`.  Otherwise `i` is the 0-based entry index.  If `i × entWidth ≥ size`,
fails with end-of-data." -/
def Index.read (i : Index) (j : Int) : Option (Nat × Nat) :=
  if i.size = 0 then none
  else if (i.size : Int) ≤
      (if j < 0 then ((i.size / entWidth : Nat) : Int) - 1 else j) * entWidth then none
  else i.entries.get?
      (if j < 0 then ((i.size / entWidth : Nat) : Int) - 1 else j).toNat

/-- segment.go `segment`: one store, one index, the base and next offsets,
and the configuration. -/
structure Segment where
  store : Store
  index : Index
  baseOffset : Nat
  nextOffset : Nat
  config : Config
deriving DecidableEq

/-- segment.go `newSegment`, with the opened store and index contents passed
in place of the files: probe the index with `Read(-1)`; on failure (empty
index) set `nextOffset = baseOffset`, otherwise `baseOffset + off + 1`.
The probe's error is consumed here and never propagates. -/
def newSegment (baseOffset : Nat) (st : Store) (idx : Index) (c : Config) : Segment :=
  match idx.read (-1) with
  | none => ⟨st, idx, baseOffset, baseOffset, c⟩
  | some (off, _) => ⟨st, idx, baseOffset, baseOffset + off + 1, c⟩

/-- segment.go `Append`: stamp the record with `nextOffset`, marshal it,
append the bytes to the store, then write the `uint32` relative offset and
the returned position to the index.  On index failure the store has already
grown but `nextOffset` is not advanced (the Go code returns the error after
the store write). -/
def Segment.append (s : Segment) (r : Record) : Option Nat × Segment :=
  let curr := s.nextOffset
  let p := marshal { r with offset := curr }
  let res := s.store.append p
  match s.index.write (sub64 s.nextOffset s.baseOffset % 2 ^ 32) res.2.1 with
  | none => (none, { s with store := res.2.2 })
  | some idx' =>
      (some curr, { s with store := res.2.2, index := idx', nextOffset := s.nextOffset + 1 })

/-- Error kinds surfaced by reads (spec §7). -/
inductive ReadError where
  | offsetOutOfRange
  | endOfData
  | storeEOF
  | serializationErr
deriving DecidableEq

/-- segment.go `Read`: compute the (wrapping `uint64`) relative offset,
look it up in the index as an `int64`, read the store at the returned
position, and unmarshal. -/
def Segment.read (s : Segment) (offset : Nat) : Except ReadError Record :=
  let rel := sub64 offset s.baseOffset
  match s.index.read (toInt64 rel) with
  | none => .error .endOfData
  | some e =>
      match s.store.read e.2 with
      | none => .error .storeEOF
      | some b =>
          match unmarshal b with
          | none => .error .serializationErr
          | some r => .ok r

/-- segment.go `IsMaxed`. -/
def Segment.isMaxed (s : Segment) : Bool :=
  s.config.segment.maxStoreBytes ≤ s.store.size ||
  s.config.segment.maxIndexBytes ≤ s.index.size

/-- The in-memory `Log` state: the config (defaults already applied by
`NewLog`), the `segments` slice, and the `activeSegment` pointer.  In Go
the pointer aliases the last slice element; here `active` carries the
pointed-to segment and `Log.writeActive` performs the aliased write-back. -/
structure Log where
  config : Config
  segments : List Segment
  active : Segment
deriving DecidableEq

/-- `NewLog` applying the configuration defaults: `MaxStoreBytes = 1024`
and `MaxIndexBytes = 1024` when zero. -/
def applyDefaults (c : Config) : Config :=
  ⟨⟨if c.segment.maxStoreBytes = 0 then 1024 else c.segment.maxStoreBytes,
    if c.segment.maxIndexBytes = 0 then 1024 else c.segment.maxIndexBytes,
    c.segment.initialOffset⟩⟩

/-- `NewLog` on an empty directory: apply defaults, then `setup` creates a
single fresh segment at `InitialOffset` and makes it active. -/
def NewLog (c : Config) : Log :=
  let c' := applyDefaults c
  let s := newSegment c'.segment.initialOffset emptyStore
    (emptyIndex c'.segment.maxIndexBytes) c'
  ⟨c', [s], s⟩

/-- Mutation through the `activeSegment` pointer: the updated segment is
visible in the slice exactly when the pointer's slot is still there (the
last slot); after a truncation that emptied the slice the write only
affects the dangling object. -/
def Log.writeActive (l : Log) (s : Segment) : Log :=
  { l with active := s,
           segments := if l.segments.isEmpty then l.segments
                       else l.segments.dropLast ++ [s] }

/-- `Log.Append`: append to the active segment; on success, if the segment
is now maxed, create a fresh segment at `offset + 1` (appended to the
slice and made active, as `l.newSegment` does). -/
def Log.append (l : Log) (r : Record) : Option Nat × Log :=
  match l.active.append r with
  | (none, s') => (none, l.writeActive s')
  | (some off, s') =>
      let l' := l.writeActive s'
      if s'.isMaxed then
        let fresh := newSegment (off + 1) emptyStore
          (emptyIndex l.config.segment.maxIndexBytes) l.config
        (some off, { l' with segments := l'.segments ++ [fresh], active := fresh })
      else (some off, l')

/-- The linear-scan condition of `Log.Read`:
`seg.baseOffset <= offset && offset < seg.nextOffset`. -/
def coversB (offset : Nat) (s : Segment) : Bool :=
  decide (s.baseOffset ≤ offset) && decide (offset < s.nextOffset)

/-- `Log.Read`: linear scan for the covering segment; if none exists fail
with "offset out of range", otherwise delegate to the segment. -/
def Log.read (l : Log) (offset : Nat) : Except ReadError Record :=
  match l.segments.find? (coversB offset) with
  | none => .error .offsetOutOfRange
  | some s => s.read offset

/-- `Log.LowestOffset`: `l.segments[0].baseOffset`; indexing an empty slice
panics in Go, modelled as `none`. -/
def Log.lowestOffset (l : Log) : Option Nat :=
  l.segments.head?.map (·.baseOffset)

/-- `Log.HighestOffset`: `l.segments[len-1].nextOffset`, then `off` when
zero else `off - 1`; indexing an empty slice panics in Go, modelled as
`none`. -/
def Log.highestOffset (l : Log) : Option Nat :=
  match l.segments.getLast? with
  | none => none
  | some s => if s.nextOffset = 0 then some 0 else some (s.nextOffset - 1)

/-- `Log.Truncate`: keep the segments with `lowest + 1 < nextOffset`, call
`Remove` on the rest.  Returns the new log and the list of segments
`Remove` was called on (their store and index files are unlinked). -/
def Log.truncate (l : Log) (lowest : Nat) : Log × List Segment :=
  ({ l with segments := l.segments.filter (fun s => decide (lowest + 1 < s.nextOffset)) },
   l.segments.filter (fun s => decide (s.nextOffset ≤ lowest + 1)))

/-- Append a bare value (the caller's record before the log stamps the
offset). -/
def Log.appendV (l : Log) (v : List Nat) : Option Nat × Log := l.append ⟨v, 0⟩

/-- The log state after a sequence of appends. -/
def appendAll (l : Log) (vs : List (List Nat)) : Log :=
  vs.foldl (fun l v => (l.appendV v).2) l

/-- Every append of the sequence succeeds. -/
def allOk (l : Log) : List (List Nat) → Bool
  | [] => true
  | v :: vs => (l.appendV v).1.isSome && allOk (l.appendV v).2 vs

/-- The offsets returned by a sequence of appends, in order. -/
def traceOffsets (l : Log) : List (List Nat) → List (Option Nat)
  | [] => []
  | v :: vs => (l.appendV v).1 :: traceOffsets (l.appendV v).2 vs

/-! ### Basic lemmas about the byte-level encoding -/

theorem length_uint64BE (n : Nat) : (uint64BE n).length = 8 := by
  simp [uint64BE]

theorem beToNat_uint64BE (n : Nat) : beToNat (uint64BE n) = n % 2 ^ 64 := by
  simp only [beToNat, uint64BE, List.foldl]
  norm_num
  omega

theorem sub64_add_left (b i : Nat) : sub64 (b + i) b = i % 2 ^ 64 := by
  simp only [sub64]
  omega

theorem readBytes_entry (p rest : List Nat) (hp : p.length < 2 ^ 64) :
    readBytes (uint64BE p.length ++ (p ++ rest)) 0 = some p := by
  have hlen : (uint64BE p.length ++ (p ++ rest)).length = 8 + (p.length + rest.length) := by
    simp [length_uint64BE]
  have htake : ((uint64BE p.length ++ (p ++ rest)).drop 0).take lenWidth = uint64BE p.length := by
    rw [List.drop_zero]
    exact List.take_left' (length_uint64BE p.length)
  have hdrop : (uint64BE p.length ++ (p ++ rest)).drop (0 + lenWidth) = p ++ rest := by
    rw [Nat.zero_add]
    exact List.drop_left' (length_uint64BE p.length)
  unfold readBytes
  rw [htake, hdrop, beToNat_uint64BE, Nat.mod_eq_of_lt hp]
  rw [if_pos (by simp [hlen, lenWidth]), if_pos (by simp [hlen, lenWidth])]
  rw [List.take_left]

theorem readBytes_shift (a f : List Nat) (pos : Nat) :
    readBytes (a ++ f) (a.length + pos) = readBytes f pos := by
  have hdrop1 : (a ++ f).drop (a.length + pos) = f.drop pos := by
    rw [← List.drop_drop, List.drop_left]
  have hdrop2 : (a ++ f).drop (a.length + pos + lenWidth) = f.drop (pos + lenWidth) := by
    rw [Nat.add_assoc, ← List.drop_drop, List.drop_left]
  unfold readBytes
  rw [hdrop1, hdrop2, List.length_append]
  split_ifs <;> first | rfl | omega

/-! ### Canonical post-append states

`segAfter c b ws` is the segment state reached from a fresh segment at base
offset `b` after successfully appending the values `ws` in order; the
lemmas below show the embedded operations map canonical states to
canonical states, which yields the reachable-state invariant for the log. -/

/-- The bytes a single store entry occupies: length prefix then payload. -/
def entryBytes (p : List Nat) : List Nat := uint64BE p.length ++ p

/-- The marshalled payloads of values `ws` appended at base offset `b`. -/
def payloads (b : Nat) (ws : List (List Nat)) : List (List Nat) :=
  (List.range ws.length).map (fun k => marshal ⟨ws.getD k [], b + k⟩)

/-- Byte position of the `k`-th entry in a store holding payloads `ps`. -/
def posOf (ps : List (List Nat)) (k : Nat) : Nat :=
  (((ps.take k).map entryBytes).flatten).length

/-- The store holding exactly the payloads `ps` (all still buffered). -/
def storeOf (ps : List (List Nat)) : Store :=
  ⟨[], ((ps.map entryBytes).flatten), ((ps.map entryBytes).flatten).length⟩

/-- The index for payloads `ps`: entry `k` maps relative offset `k`
(truncated to `u32`) to the byte position of payload `k`. -/
def indexOf (maxB : Nat) (ps : List (List Nat)) : Index :=
  ⟨(List.range ps.length).map (fun k => (k % 2 ^ 32, posOf ps k)), maxB⟩

/-- Canonical segment state after appending `ws` at base `b`. -/
def segAfter (c : Config) (b : Nat) (ws : List (List Nat)) : Segment :=
  ⟨storeOf (payloads b ws), indexOf c.segment.maxIndexBytes (payloads b ws),
   b, b + ws.length, c⟩

theorem length_entryBytes (p : List Nat) : (entryBytes p).length = lenWidth + p.length := by
  simp [entryBytes, length_uint64BE, lenWidth]

theorem payloads_length (b : Nat) (ws : List (List Nat)) :
    (payloads b ws).length = ws.length := by
  simp [payloads]

theorem getD_map_range {α : Type} (f : Nat → α) (n i : Nat) (d : α) (h : i < n) :
    (((List.range n).map f).getD i d) = f i := by
  rw [List.getD_eq_getElem?_getD, List.getElem?_map, List.getElem?_range h]
  rfl

theorem payloads_getD (b : Nat) (ws : List (List Nat)) (i : Nat) (h : i < ws.length) :
    (payloads b ws).getD i [] = marshal ⟨ws.getD i [], b + i⟩ :=
  getD_map_range _ _ _ _ h

theorem payloads_concat (b : Nat) (ws : List (List Nat)) (v : List Nat) :
    payloads b (ws ++ [v]) = payloads b ws ++ [marshal ⟨v, b + ws.length⟩] := by
  unfold payloads
  rw [List.length_append, List.length_cons, List.length_nil, List.range_succ,
    List.map_append]
  congr 1
  · refine List.map_congr_left ?_
    intro k hk
    rw [List.mem_range] at hk
    rw [List.getD_append _ _ _ _ hk]
  · simp

theorem posOf_take_stable (ps : List (List Nat)) (p : List Nat) (k : Nat)
    (h : k ≤ ps.length) : posOf (ps ++ [p]) k = posOf ps k := by
  unfold posOf
  rw [List.take_append_of_le_length h]

theorem posOf_last (ps : List (List Nat)) (p : List Nat) :
    posOf (ps ++ [p]) ps.length = ((ps.map entryBytes).flatten).length := by
  unfold posOf
  rw [List.take_append_of_le_length (Nat.le_refl _), List.take_length]

theorem storeOf_append (ps : List (List Nat)) (p : List Nat) :
    (storeOf ps).append p
      = (lenWidth + p.length, ((ps.map entryBytes).flatten).length, storeOf (ps ++ [p])) := by
  unfold storeOf Store.append
  simp [entryBytes, length_uint64BE, lenWidth]

theorem readJoin (ps : List (List Nat)) (i : Nat) (hi : i < ps.length)
    (hlen : (ps.getD i []).length < 2 ^ 64) :
    readBytes ((ps.map entryBytes).flatten) (posOf ps i) = some (ps.getD i []) := by
  induction ps generalizing i with
  | nil => exact absurd hi (by simp)
  | cons p rest ih =>
    cases i with
    | zero =>
      have hpos : posOf (p :: rest) 0 = 0 := rfl
      rw [hpos]
      have hjoin : (((p :: rest).map entryBytes).flatten)
          = uint64BE p.length ++ (p ++ ((rest.map entryBytes).flatten)) := by
        simp [entryBytes, List.append_assoc]
      rw [hjoin]
      have hD : (p :: rest).getD 0 [] = p := rfl
      rw [hD]
      exact readBytes_entry p _ (by simpa [hD] using hlen)
    | succ i' =>
      have hpos : posOf (p :: rest) (i' + 1) = (entryBytes p).length + posOf rest i' := by
        unfold posOf
        simp
      have hjoin : (((p :: rest).map entryBytes).flatten)
          = entryBytes p ++ ((rest.map entryBytes).flatten) := by simp
      have hD : (p :: rest).getD (i' + 1) [] = rest.getD i' [] := rfl
      rw [hpos, hjoin, readBytes_shift, hD]
      exact ih i' (by simpa using hi) (by simpa [hD] using hlen)

theorem storeOf_read (ps : List (List Nat)) (i : Nat) (hi : i < ps.length)
    (hlen : (ps.getD i []).length < 2 ^ 64) :
    (storeOf ps).read (posOf ps i) = some (ps.getD i []) := by
  show readBytes (storeOf ps).flush.file (posOf ps i) = some (ps.getD i [])
  have hf : (storeOf ps).flush.file = ((ps.map entryBytes).flatten) := by
    simp [storeOf, Store.flush]
  rw [hf]
  exact readJoin ps i hi hlen

theorem indexOf_read_nonneg (maxB : Nat) (ps : List (List Nat)) (i : Nat)
    (hi : i < ps.length) :
    (indexOf maxB ps).read (i : Nat) = some (i % 2 ^ 32, posOf ps i) := by
  have hsz : (indexOf maxB ps).size = ps.length * entWidth := by
    simp [indexOf, Index.size]
  have hnotneg : ¬ ((i : Int) < 0) := by omega
  have h12 : ((entWidth : Nat) : Int) = 12 := rfl
  unfold Index.read
  rw [if_neg hnotneg, hsz]
  rw [if_neg (by simp only [entWidth]; omega)]
  rw [if_neg (by push_cast; rw [h12]; omega)]
  rw [Int.toNat_natCast, List.get?_eq_getElem?]
  show (((List.range ps.length).map (fun k => (k % 2 ^ 32, posOf ps k)))[i]?) = _
  rw [List.getElem?_map, List.getElem?_range hi]
  rfl

theorem unmarshal_marshal (r : Record) (h : r.offset < 2 ^ 64) :
    unmarshal (marshal r) = some r := by
  unfold unmarshal marshal
  have hlen : (uint64BE r.offset ++ r.value).length = 8 + r.value.length := by
    simp [length_uint64BE]
  rw [if_pos (by simp [hlen, lenWidth])]
  have hdrop : (uint64BE r.offset ++ r.value).drop lenWidth = r.value :=
    List.drop_left' (length_uint64BE r.offset)
  have htake : (uint64BE r.offset ++ r.value).take lenWidth = uint64BE r.offset :=
    List.take_left' (length_uint64BE r.offset)
  rw [hdrop, htake, beToNat_uint64BE, Nat.mod_eq_of_lt h]

theorem indexOf_concat (maxB : Nat) (ps : List (List Nat)) (p : List Nat) :
    indexOf maxB (ps ++ [p])
      = ⟨(indexOf maxB ps).entries
          ++ [(ps.length % 2 ^ 32, ((ps.map entryBytes).flatten).length)], maxB⟩ := by
  unfold indexOf
  congr 1
  rw [List.length_append, List.length_cons, List.length_nil, List.range_succ,
    List.map_append]
  congr 1
  · refine List.map_congr_left ?_
    intro k hk
    rw [List.mem_range] at hk
    rw [posOf_take_stable _ _ _ (le_of_lt hk)]
  · simp [posOf_last]

theorem newSegment_empty (b : Nat) (c : Config) :
    newSegment b emptyStore (emptyIndex c.segment.maxIndexBytes) c = segAfter c b [] := rfl

theorem segAfter_append (c : Config) (b : Nat) (ws : List (List Nat)) (v : List Nat)
    (o : Nat) (hroom : ws.length * entWidth + entWidth ≤ c.segment.maxIndexBytes) :
    (segAfter c b ws).append ⟨v, o⟩ = (some (b + ws.length), segAfter c b (ws ++ [v])) := by
  have hsub : sub64 (b + ws.length) b % 2 ^ 32 = ws.length % 2 ^ 32 := by
    rw [sub64_add_left]
    exact Nat.mod_mod_of_dvd _ (by norm_num)
  have hwrite : (indexOf c.segment.maxIndexBytes (payloads b ws)).write
      (ws.length % 2 ^ 32) ((((payloads b ws).map entryBytes).flatten).length)
      = some (indexOf c.segment.maxIndexBytes (payloads b (ws ++ [v]))) := by
    unfold Index.write
    rw [if_neg (by
      simp only [indexOf, Index.size, List.length_map, List.length_range, payloads_length]
      omega)]
    rw [payloads_concat, indexOf_concat, payloads_length]
    rfl
  unfold Segment.append
  simp only [segAfter, hsub, storeOf_append, hwrite]
  refine congrArg _ ?_
  rw [payloads_concat]
  simp [Nat.add_assoc]

theorem segAfter_append_isSome (c : Config) (b : Nat) (ws : List (List Nat)) (r : Record)
    (h : ((segAfter c b ws).append r).1.isSome = true) :
    ws.length * entWidth + entWidth ≤ c.segment.maxIndexBytes := by
  by_contra hn
  have hw : (indexOf c.segment.maxIndexBytes (payloads b ws)).write
      (sub64 (b + ws.length) b % 2 ^ 32)
      (((storeOf (payloads b ws)).append
        (marshal { Record.mk r.value r.offset with offset := b + ws.length })).2.1)
      = none := by
    unfold Index.write
    rw [if_pos (by
      simp only [indexOf, Index.size, List.length_map, List.length_range, payloads_length]
      omega)]
  unfold Segment.append at h
  simp only [segAfter] at h
  rw [hw] at h
  simp at h

theorem segAfter_read (c : Config) (b : Nat) (ws : List (List Nat)) (i : Nat)
    (hi : i < ws.length) (h63 : i < 2 ^ 63) (hb : b + i < 2 ^ 64)
    (hv : (ws.getD i []).length < 2 ^ 63) :
    (segAfter c b ws).read (b + i) = .ok ⟨ws.getD i [], b + i⟩ := by
  have hrel : sub64 (b + i) b = i := by
    rw [sub64_add_left]
    omega
  have hti : toInt64 i = ((i : Nat) : Int) := by
    unfold toInt64
    have h1 : i % 2 ^ 64 = i := Nat.mod_eq_of_lt (by omega)
    rw [h1, if_pos (by omega)]
  have hip : i < (payloads b ws).length := by rw [payloads_length]; exact hi
  have hidx : (indexOf c.segment.maxIndexBytes (payloads b ws)).read ((i : Nat) : Int)
      = some (i % 2 ^ 32, posOf (payloads b ws) i) :=
    indexOf_read_nonneg _ _ _ hip
  have hmlen : ((payloads b ws).getD i []).length < 2 ^ 64 := by
    rw [payloads_getD b ws i hi]
    simp only [marshal, List.length_append, length_uint64BE]
    omega
  have hread : (storeOf (payloads b ws)).read (posOf (payloads b ws) i)
      = some (marshal ⟨ws.getD i [], b + i⟩) := by
    rw [storeOf_read _ _ hip hmlen, payloads_getD b ws i hi]
  have hum : unmarshal (marshal ⟨ws.getD i [], b + i⟩) = some ⟨ws.getD i [], b + i⟩ :=
    unmarshal_marshal _ hb
  unfold Segment.read
  simp only [segAfter, hrel, hti, hidx, hread, hum]

/-! ### Log-level reachable-state invariant -/

/-- The segment list determined by distributing parts of the value sequence
over consecutive base offsets starting at `b`. -/
def partsSegs (c : Config) : Nat → List (List (List Nat)) → List Segment
  | _, [] => []
  | b, ws :: rest => segAfter c b ws :: partsSegs c (b + ws.length) rest

/-- Reachable log states: after `NewLog` on an empty directory and a
sequence of successful appends of `vs`, the segments are canonical
segments over a partition of `vs` at consecutive base offsets starting at
`init`, and the active segment aliases the last slot. -/
def LogGood (c : Config) (init : Nat) (vs : List (List Nat)) (l : Log) : Prop :=
  ∃ parts : List (List (List Nat)),
    parts ≠ [] ∧ vs = parts.flatten ∧ l.config = c ∧
    l.segments = partsSegs c init parts ∧
    l.segments.getLast? = some l.active

theorem partsSegs_append (c : Config) (b : Nat) (xs ys : List (List (List Nat))) :
    partsSegs c b (xs ++ ys)
      = partsSegs c b xs ++ partsSegs c (b + xs.flatten.length) ys := by
  induction xs generalizing b with
  | nil => simp [partsSegs]
  | cons x xs' ih =>
    simp only [List.cons_append, partsSegs, List.flatten_cons, List.length_append,
      List.append_eq]
    rw [ih, ← Nat.add_assoc]

theorem partsSegs_concat (c : Config) (b : Nat) (xs : List (List (List Nat)))
    (wl : List (List Nat)) :
    partsSegs c b (xs ++ [wl])
      = partsSegs c b xs ++ [segAfter c (b + xs.flatten.length) wl] := by
  rw [partsSegs_append]
  rfl

theorem log_append_fst (l : Log) (r : Record) :
    (l.append r).1 = (l.active.append r).1 := by
  unfold Log.append
  rcases h : l.active.append r with ⟨o, s'⟩
  cases o with
  | none => rfl
  | some off =>
    by_cases hm : s'.isMaxed
    · simp [hm]
    · simp [hm]

theorem writeActive_concat (l : Log) (pre : List Segment) (old s' : Segment)
    (hsegs : l.segments = pre ++ [old]) :
    l.writeActive s' = { l with active := s', segments := pre ++ [s'] } := by
  unfold Log.writeActive
  rw [hsegs]
  rw [if_neg (by simp)]
  rw [List.dropLast_concat]

theorem logGood_append (c : Config) (init : Nat) (vs : List (List Nat)) (l : Log)
    (v : List Nat) (hg : LogGood c init vs l)
    (hok : ((l.appendV v).1).isSome = true) :
    (l.appendV v).1 = some (init + vs.length) ∧
    LogGood c init (vs ++ [v]) (l.appendV v).2 := by
  obtain ⟨parts, hne, hvs, hcfg, hsegs, hact⟩ := hg
  obtain ⟨ps₀, wl, rfl⟩ := (List.eq_nil_or_concat parts).resolve_left hne
  rw [List.concat_eq_append] at hvs hsegs
  have hsegs' : l.segments
      = partsSegs c init ps₀ ++ [segAfter c (init + ps₀.flatten.length) wl] := by
    rw [hsegs, partsSegs_concat]
  have hactive : l.active = segAfter c (init + ps₀.flatten.length) wl := by
    have h := hact
    rw [hsegs', List.getLast?_concat] at h
    exact (Option.some_injective _ h).symm
  have hlen : vs.length = ps₀.flatten.length + wl.length := by
    rw [hvs]
    simp
  have hsome : ((segAfter c (init + ps₀.flatten.length) wl).append ⟨v, 0⟩).1.isSome
      = true := by
    have h := log_append_fst l ⟨v, 0⟩
    rw [hactive] at h
    unfold Log.appendV at hok
    rw [h] at hok
    exact hok
  have hroom : wl.length * entWidth + entWidth ≤ c.segment.maxIndexBytes :=
    segAfter_append_isSome c _ wl ⟨v, 0⟩ hsome
  have happ : (segAfter c (init + ps₀.flatten.length) wl).append ⟨v, 0⟩
      = (some (init + ps₀.flatten.length + wl.length),
         segAfter c (init + ps₀.flatten.length) (wl ++ [v])) :=
    segAfter_append c _ wl v 0 hroom
  have hwa : l.writeActive (segAfter c (init + ps₀.flatten.length) (wl ++ [v]))
      = { l with active := segAfter c (init + ps₀.flatten.length) (wl ++ [v]),
                 segments := partsSegs c init ps₀
                   ++ [segAfter c (init + ps₀.flatten.length) (wl ++ [v])] } :=
    writeActive_concat l _ _ _ hsegs'
  have hvs' : vs ++ [v] = (ps₀ ++ [wl ++ [v]]).flatten := by
    rw [hvs]
    simp
  have hsegs₂ : partsSegs c init (ps₀ ++ [wl ++ [v]])
      = partsSegs c init ps₀
        ++ [segAfter c (init + ps₀.flatten.length) (wl ++ [v])] := by
    rw [partsSegs_concat]
  unfold Log.appendV Log.append
  rw [hactive, happ]
  by_cases hm : (segAfter c (init + ps₀.flatten.length) (wl ++ [v])).isMaxed
  · simp only [hm, if_true]
    constructor
    · show some (init + ps₀.flatten.length + wl.length) = some (init + vs.length)
      rw [hlen, Nat.add_assoc]
    · refine ⟨(ps₀ ++ [wl ++ [v]]) ++ [[]], by simp, ?_, ?_, ?_, ?_⟩
      · rw [hvs']
        simp
      · exact hcfg
      · show (l.writeActive _).segments ++ [_] = _
        rw [hwa, partsSegs_concat, ← hsegs₂]
        have hflen : (ps₀ ++ [wl ++ [v]]).flatten.length = vs.length + 1 := by
          rw [← hvs']
          simp
        rw [hflen]
        have hfresh : newSegment (init + ps₀.flatten.length + wl.length + 1) emptyStore
            (emptyIndex l.config.segment.maxIndexBytes) l.config
            = segAfter c (init + (vs.length + 1)) [] := by
          rw [hcfg, newSegment_empty]
          have : init + ps₀.flatten.length + wl.length + 1 = init + (vs.length + 1) := by
            rw [hlen]
            omega
          rw [this]
        rw [hfresh]
      · show (_ ++ [_]).getLast? = _
        rw [List.getLast?_concat]
  · simp only [hm, if_false]
    constructor
    · show some (init + ps₀.flatten.length + wl.length) = some (init + vs.length)
      rw [hlen, Nat.add_assoc]
    · refine ⟨ps₀ ++ [wl ++ [v]], by simp, hvs', ?_, ?_, ?_⟩
      · show (l.writeActive _).config = c
        rw [hwa]
        exact hcfg
      · show (l.writeActive _).segments = _
        rw [hwa, hsegs₂]
      · show (l.writeActive _).segments.getLast? = some (l.writeActive _).active
        rw [hwa]
        exact List.getLast?_concat _

theorem getD_mem {α : Type} (l : List α) (i : Nat) (d : α) (h : i < l.length) :
    l.getD i d ∈ l := by
  rw [List.getD_eq_getElem?_getD, List.getElem?_eq_getElem h]
  exact List.getElem_mem h

theorem partsSegs_bounds (c : Config) (b : Nat) (parts : List (List (List Nat))) :
    ∀ s ∈ partsSegs c b parts,
      b ≤ s.baseOffset ∧ s.nextOffset ≤ b + parts.flatten.length := by
  induction parts generalizing b with
  | nil =>
    intro s hs
    simp [partsSegs] at hs
  | cons ws rest ih =>
    intro s hs
    simp only [partsSegs, List.mem_cons] at hs
    rcases hs with rfl | hs
    · refine ⟨Nat.le_refl _, ?_⟩
      show b + ws.length ≤ b + ((ws :: rest).flatten).length
      simp only [List.flatten_cons, List.length_append]
      omega
    · obtain ⟨h1, h2⟩ := ih (b + ws.length) s hs
      refine ⟨by omega, ?_⟩
      simp only [List.flatten_cons, List.length_append]
      omega

/-- The body of `Log.Read` as a function of the segment list. -/
def readSegs (segs : List Segment) (offset : Nat) : Except ReadError Record :=
  match segs.find? (coversB offset) with
  | none => .error .offsetOutOfRange
  | some s => s.read offset

theorem log_read_eq_readSegs (l : Log) (offset : Nat) :
    l.read offset = readSegs l.segments offset := by
  cases h : l.segments.find? (coversB offset) <;> simp [Log.read, readSegs, h]

theorem readSegs_none (segs : List Segment) (offset : Nat)
    (h : ∀ s ∈ segs, ¬(s.baseOffset ≤ offset ∧ offset < s.nextOffset)) :
    readSegs segs offset = .error .offsetOutOfRange := by
  unfold readSegs
  rw [List.find?_eq_none.mpr ?_]
  intro s hs
  simp only [coversB, Bool.and_eq_true, decide_eq_true_eq]
  exact fun hc => h s hs ⟨hc.1, hc.2⟩

theorem readSegs_partsSegs (c : Config) (b : Nat) (parts : List (List (List Nat)))
    (i : Nat) (hi : i < parts.flatten.length)
    (h63 : parts.flatten.length ≤ 2 ^ 63)
    (h64 : b + parts.flatten.length ≤ 2 ^ 64)
    (hv : ∀ v ∈ parts.flatten, v.length < 2 ^ 63) :
    readSegs (partsSegs c b parts) (b + i)
      = .ok ⟨parts.flatten.getD i [], b + i⟩ := by
  induction parts generalizing b i with
  | nil => simp at hi
  | cons ws rest ih =>
    have htot : ((ws :: rest).flatten).length = ws.length + rest.flatten.length := by
      simp
    by_cases hlt : i < ws.length
    · have hcov : coversB (b + i) (segAfter c b ws) = true := by
        simp only [coversB, segAfter, Bool.and_eq_true, decide_eq_true_eq]
        omega
      have hfind : (partsSegs c b (ws :: rest)).find? (coversB (b + i))
          = some (segAfter c b ws) := by
        show (segAfter c b ws :: partsSegs c (b + ws.length) rest).find? _ = _
        rw [List.find?_cons_of_pos _ hcov]
      unfold readSegs
      rw [hfind]
      have hvD : (ws :: rest).flatten.getD i [] = ws.getD i [] := by
        rw [List.flatten_cons, List.getD_append _ _ _ _ hlt]
      rw [hvD]
      refine segAfter_read c b ws i hlt (by omega) (by omega) ?_
      refine hv _ ?_
      rw [List.flatten_cons]
      exact List.mem_append_left _ (getD_mem ws i [] hlt)
    · have hcov : coversB (b + i) (segAfter c b ws) = false := by
        simp only [coversB, segAfter, Bool.and_eq_true, decide_eq_true_eq,
          Bool.and_eq_false_iff, decide_eq_false_iff_not]
        omega
      have hfind : (partsSegs c b (ws :: rest)).find? (coversB (b + i))
          = (partsSegs c (b + ws.length) rest).find? (coversB (b + i)) := by
        show (segAfter c b ws :: partsSegs c (b + ws.length) rest).find? _ = _
        rw [List.find?_cons_of_neg _ (by rw [hcov]; simp)]
      have harith : b + i = (b + ws.length) + (i - ws.length) := by omega
      have hvD : (ws :: rest).flatten.getD i [] = rest.flatten.getD (i - ws.length) [] := by
        rw [List.flatten_cons, List.getD_append_right _ _ _ _ (by omega)]
      have hih := ih (b + ws.length) (i - ws.length) (by omega)
        (by omega) (by omega)
        (fun v hvm => hv v (by rw [List.flatten_cons]; exact List.mem_append_right _ hvm))
      unfold readSegs at hih ⊢
      rw [hfind, harith, hvD]
      exact hih

theorem logGood_newLog (c : Config) :
    LogGood (applyDefaults c) ((applyDefaults c).segment.initialOffset) [] (NewLog c) := by
  refine ⟨[[]], by simp, rfl, rfl, rfl, rfl⟩

theorem logGood_trace (c : Config) (init : Nat) (vs acc : List (List Nat)) (l : Log)
    (hg : LogGood c init acc l) (hok : allOk l vs = true) :
    LogGood c init (acc ++ vs) (appendAll l vs) ∧
    traceOffsets l vs
      = (List.range vs.length).map (fun k => some (init + (acc.length + k))) := by
  induction vs generalizing l acc with
  | nil =>
    refine ⟨by simpa [appendAll] using hg, by simp [traceOffsets]⟩
  | cons v vs' ih =>
    have hok' := hok
    unfold allOk at hok'
    rw [Bool.and_eq_true] at hok'
    obtain ⟨hok1, hokrest⟩ := hok'
    obtain ⟨hoff, hg'⟩ := logGood_append c init acc l v hg hok1
    obtain ⟨hga, htr⟩ := ih (acc ++ [v]) (l.appendV v).2 hg' hokrest
    rw [List.length_append, List.length_cons, List.length_nil] at htr
    constructor
    · have hacc : acc ++ v :: vs' = (acc ++ [v]) ++ vs' := by simp
      have happ : appendAll l (v :: vs') = appendAll (l.appendV v).2 vs' := by
        simp [appendAll, Log.appendV]
      rw [hacc, happ]
      exact hga
    · show (l.appendV v).1 :: traceOffsets (l.appendV v).2 vs'
        = (List.range (vs'.length + 1)).map (fun k => some (init + (acc.length + k)))
      rw [hoff, htr, List.range_succ_eq_map, List.map_cons, List.map_map]
      congr 1
      refine List.map_congr_left ?_
      intro k _
      simp only [Function.comp_apply]
      congr 1
      omega

/-! ### C5 and C6: store-level properties -/

/-- C5: a successful `store.Append(p)` returns position equal to the store's
size before the write and `n_bytes_written = lenWidth + len(p)` with
`lenWidth = 8`, and afterwards the store's size has grown by
`lenWidth + len(p)`. -/
theorem store_append_returns_prev_size (s : Store) (p : List Nat) :
    lenWidth = 8 ∧
    (s.append p).1 = lenWidth + p.length ∧
    (s.append p).2.1 = s.size ∧
    (s.append p).2.2.size = s.size + lenWidth + p.length := by
  refine ⟨rfl, rfl, rfl, ?_⟩
  simp [Store.append]
  omega

/-- C6: store-level append/read round-trip: appending payload `p` at
position `pos` and then reading `pos` returns exactly `p` (the read
flushes the write buffer first, so the buffered append is visible). -/
theorem store_append_read_roundtrip (s : Store) (p : List Nat)
    (hwf : s.size = s.file.length + s.buf.length) (hp : p.length < 2 ^ 64) :
    (s.append p).2.2.read ((s.append p).2.1) = some p := by
  show readBytes (s.append p).2.2.flush.file (s.append p).2.1 = some p
  have hfile : (s.append p).2.2.flush.file
      = (s.file ++ s.buf) ++ (uint64BE p.length ++ (p ++ [])) := by
    simp [Store.append, Store.flush]
  have hpos : (s.append p).2.1 = (s.file ++ s.buf).length + 0 := by
    show s.size = _
    simp [hwf]
  rw [hfile, hpos, readBytes_shift]
  exact readBytes_entry p [] hp

/-- Closed witness for C6 at a concrete store and payload. -/
theorem store_append_read_roundtrip_witness :
    (emptyStore.append [1, 2, 3]).2.2.read ((emptyStore.append [1, 2, 3]).2.1)
      = some [1, 2, 3] :=
  store_append_read_roundtrip emptyStore [1, 2, 3] rfl (by decide)

/-! ### C7: truncation -/

/-- C7: after `Truncate(lowest)`, every remaining segment has
`nextOffset > lowest + 1`; the remaining segments are a sublist of the
original list (original ascending order preserved); every segment
`Remove` was called on satisfies `nextOffset ≤ lowest + 1`; and every
original segment is either retained or removed. -/
theorem truncate_removes_low_segments (l : Log) (lowest : Nat) :
    (∀ s ∈ (l.truncate lowest).1.segments, lowest + 1 < s.nextOffset) ∧
    List.Sublist (l.truncate lowest).1.segments l.segments ∧
    (∀ s ∈ (l.truncate lowest).2, s.nextOffset ≤ lowest + 1) ∧
    (∀ s ∈ l.segments,
      s ∈ (l.truncate lowest).1.segments ∨ s ∈ (l.truncate lowest).2) := by
  refine ⟨?_, ?_, ?_, ?_⟩
  · intro s hs
    simp only [Log.truncate, List.mem_filter, decide_eq_true_eq] at hs
    exact hs.2
  · exact List.filter_sublist l.segments
  · intro s hs
    simp only [Log.truncate, List.mem_filter, decide_eq_true_eq] at hs
    exact hs.2
  · intro s hs
    by_cases h : s.nextOffset ≤ lowest + 1
    · right
      simp only [Log.truncate, List.mem_filter, decide_eq_true_eq]
      exact ⟨hs, h⟩
    · left
      simp only [Log.truncate, List.mem_filter, decide_eq_true_eq]
      exact ⟨hs, by omega⟩

/-! ### C1, C2, C3: log-level append/read properties -/

/-- C1: on a log built by `NewLog` on an empty directory followed by a
sequence of successful appends, reading any offset `o` in
`[LowestOffset, HighestOffset]` returns a record whose `Offset` equals `o`
and whose `Value` is the value appended at `o`; moreover `LowestOffset`
is `InitialOffset` and `HighestOffset` is `InitialOffset + n - 1`.
(The machine-word bounds are Go's `uint64`/`int64` ranges.) -/
theorem log_append_read_roundtrip (c : Config) (vs : List (List Nat))
    (hok : allOk (NewLog c) vs = true)
    (h63 : vs.length ≤ 2 ^ 63)
    (h64 : (applyDefaults c).segment.initialOffset + vs.length ≤ 2 ^ 64)
    (hv : ∀ v ∈ vs, v.length < 2 ^ 63) :
    (∀ i < vs.length,
      (appendAll (NewLog c) vs).read ((applyDefaults c).segment.initialOffset + i)
        = .ok ⟨vs.getD i [], (applyDefaults c).segment.initialOffset + i⟩) ∧
    (appendAll (NewLog c) vs).lowestOffset
      = some (applyDefaults c).segment.initialOffset ∧
    (0 < vs.length →
      (appendAll (NewLog c) vs).highestOffset
        = some ((applyDefaults c).segment.initialOffset + vs.length - 1)) := by
  obtain ⟨hga, -⟩ :=
    logGood_trace (applyDefaults c) _ vs [] (NewLog c) (logGood_newLog c) hok
  rw [List.nil_append] at hga
  obtain ⟨parts, hne, hvs, hcfg, hsegs, hact⟩ := hga
  subst hvs
  refine ⟨?_, ?_, ?_⟩
  · intro i hi
    rw [log_read_eq_readSegs, hsegs]
    exact readSegs_partsSegs _ _ parts i hi h63 h64 hv
  · unfold Log.lowestOffset
    rw [hsegs]
    rcases parts with _ | ⟨w, rest⟩
    · exact absurd rfl hne
    · rfl
  · intro hpos
    obtain ⟨ps₀, wl, rfl⟩ := (List.eq_nil_or_concat parts).resolve_left hne
    rw [List.concat_eq_append] at hsegs hpos h63 h64 ⊢
    unfold Log.highestOffset
    rw [hsegs, partsSegs_concat, List.getLast?_concat]
    have hlen : (ps₀ ++ [wl]).flatten.length = ps₀.flatten.length + wl.length := by
      simp
    have hnext : (segAfter (applyDefaults c)
        ((applyDefaults c).segment.initialOffset + ps₀.flatten.length) wl).nextOffset
        = (applyDefaults c).segment.initialOffset + (ps₀ ++ [wl]).flatten.length := by
      show _ + ps₀.flatten.length + wl.length = _
      rw [hlen]
      omega
    show (if (segAfter _ _ wl).nextOffset = 0 then some 0
          else some ((segAfter _ _ wl).nextOffset - 1)) = _
    rw [hnext, if_neg (by omega)]

/-- Closed witness for C1: two appends on an empty log at `InitialOffset = 0`;
reading offset 1 returns the second value with offset 1. -/
theorem log_append_read_roundtrip_witness :
    (appendAll (NewLog ⟨⟨1024, 1024, 0⟩⟩) [[7], [8, 9]]).read 1
      = .ok ⟨[8, 9], 1⟩ := by
  have h := log_append_read_roundtrip ⟨⟨1024, 1024, 0⟩⟩ [[7], [8, 9]]
    (by decide) (by decide) (by decide) (by decide)
  exact h.1 1 (by decide)

/-- C2: on a log built on an empty directory, the assigned offsets of a
sequence of successful appends are the consecutive integers
`InitialOffset, InitialOffset + 1, …` (across segment rollovers). -/
theorem log_append_offsets_consecutive (c : Config) (vs : List (List Nat))
    (hok : allOk (NewLog c) vs = true) :
    traceOffsets (NewLog c) vs
      = (List.range vs.length).map
          (fun k => some ((applyDefaults c).segment.initialOffset + k)) := by
  obtain ⟨-, htr⟩ :=
    logGood_trace (applyDefaults c) _ vs [] (NewLog c) (logGood_newLog c) hok
  rw [htr]
  refine List.map_congr_left ?_
  intro k _
  simp

/-- Closed witness for C2: three appends starting at `InitialOffset = 5`
return offsets 5, 6, 7. -/
theorem log_append_offsets_consecutive_witness :
    traceOffsets (NewLog ⟨⟨1024, 1024, 5⟩⟩) [[1], [2], [3]]
      = [some 5, some 6, some 7] := by
  have h := log_append_offsets_consecutive ⟨⟨1024, 1024, 5⟩⟩ [[1], [2], [3]] (by decide)
  rw [h]
  rfl

/-- C3: if no segment `S` of the log satisfies
`S.baseOffset ≤ o < S.nextOffset`, then `Log.Read(o)` fails with the
offset-out-of-range error (for any log state); in particular, on a log
built by successful appends, every `o` below `LowestOffset` or above
`HighestOffset` fails this way. -/
theorem log_read_out_of_range :
    (∀ (l : Log) (o : Nat),
      (∀ s ∈ l.segments, ¬(s.baseOffset ≤ o ∧ o < s.nextOffset)) →
      l.read o = .error .offsetOutOfRange) ∧
    (∀ (c : Config) (vs : List (List Nat)) (o : Nat),
      allOk (NewLog c) vs = true →
      (o < (applyDefaults c).segment.initialOffset ∨
        (applyDefaults c).segment.initialOffset + vs.length ≤ o) →
      (appendAll (NewLog c) vs).read o = .error .offsetOutOfRange) := by
  constructor
  · intro l o h
    rw [log_read_eq_readSegs]
    exact readSegs_none _ _ h
  · intro c vs o hok hout
    obtain ⟨hga, -⟩ :=
      logGood_trace (applyDefaults c) _ vs [] (NewLog c) (logGood_newLog c) hok
    rw [List.nil_append] at hga
    obtain ⟨parts, hne, hvs, hcfg, hsegs, hact⟩ := hga
    rw [log_read_eq_readSegs, hsegs]
    refine readSegs_none _ _ ?_
    intro s hs hc
    obtain ⟨h1, h2⟩ := partsSegs_bounds (applyDefaults c) _ parts s hs
    have hlen : parts.flatten.length = vs.length := by rw [hvs]
    omega

/-- Closed witness for C3: reading offset 5 on a fresh empty log fails with
offset-out-of-range, and reading offset 9 on a one-record log (highest
offset 0) fails the same way. -/
theorem log_read_out_of_range_witness :
    (NewLog ⟨⟨1024, 1024, 0⟩⟩).read 5 = .error .offsetOutOfRange ∧
    (appendAll (NewLog ⟨⟨1024, 1024, 0⟩⟩) [[42]]).read 9 = .error .offsetOutOfRange :=
  ⟨log_read_out_of_range.1 (NewLog ⟨⟨1024, 1024, 0⟩⟩) 5 (by decide),
   log_read_out_of_range.2 ⟨⟨1024, 1024, 0⟩⟩ [[42]] 9 (by decide) (Or.inr (by decide))⟩

/-! ### C4: maxed segments and rollover -/

theorem log_append_maxed (l : Log) (r : Record) (o : Nat)
    (h1 : (l.active.append r).1 = some o)
    (h2 : ((l.active.append r).2).isMaxed = true) :
    l.append r = (some o,
      { config := l.config,
        segments := (l.writeActive (l.active.append r).2).segments
          ++ [newSegment (o + 1) emptyStore
            (emptyIndex l.config.segment.maxIndexBytes) l.config],
        active := newSegment (o + 1) emptyStore
          (emptyIndex l.config.segment.maxIndexBytes) l.config }) := by
  unfold Log.append
  rcases hh : l.active.append r with ⟨o?, s'⟩
  rw [hh] at h1 h2
  cases o? with
  | none => simp at h1
  | some off =>
    have hoo : off = o := by simpa using h1
    subst hoo
    have h2' : s'.isMaxed = true := h2
    simp only [h2', if_true]
    rfl

/-- C4: a segment is maxed iff its store size is at least `MaxStoreBytes`
or its index size is at least `MaxIndexBytes`; and when a successful append
leaves the active segment maxed, the log appends a fresh segment with
`baseOffset = offset + 1` as the new active segment (last in the list), so
the next append (possible whenever one index entry fits) is assigned
`offset + 1`. -/
theorem segment_maxed_rollover (s : Segment) (l : Log) (r r2 : Record) (o : Nat)
    (h1 : (l.active.append r).1 = some o)
    (h2 : ((l.active.append r).2).isMaxed = true)
    (h3 : entWidth ≤ l.config.segment.maxIndexBytes) :
    (s.isMaxed = true ↔
      (s.config.segment.maxStoreBytes ≤ s.store.size ∨
       s.config.segment.maxIndexBytes ≤ s.index.size)) ∧
    (l.append r).1 = some o ∧
    (l.append r).2.active.baseOffset = o + 1 ∧
    (l.append r).2.active.nextOffset = o + 1 ∧
    (l.append r).2.segments.getLast? = some ((l.append r).2.active) ∧
    ((l.append r).2.append r2).1 = some (o + 1) := by
  have hsnd := log_append_maxed l r o h1 h2
  have hfresh : newSegment (o + 1) emptyStore
      (emptyIndex l.config.segment.maxIndexBytes) l.config
      = segAfter l.config (o + 1) [] := newSegment_empty (o + 1) l.config
  have hnapp : ((segAfter l.config (o + 1) []).append r2).1 = some (o + 1) := by
    have h := segAfter_append l.config (o + 1) [] r2.value r2.offset
      (by simpa using h3)
    have hr2 : (⟨r2.value, r2.offset⟩ : Record) = r2 := rfl
    rw [hr2] at h
    rw [h]
    rfl
  refine ⟨?_, ?_, ?_, ?_, ?_, ?_⟩
  · simp [Segment.isMaxed, Bool.or_eq_true, decide_eq_true_eq]
  · rw [hsnd]
  · rw [hsnd, hfresh]
    rfl
  · rw [hsnd, hfresh]
    rfl
  · rw [hsnd]
    exact List.getLast?_concat _
  · rw [hsnd, log_append_fst]
    show ((newSegment (o + 1) emptyStore _ l.config).append r2).1 = _
    rw [hfresh]
    exact hnapp

/-- Closed witness for C4: with `MaxStoreBytes = 1` the first append maxes
the active segment; the rollover segment starts at base offset 1 and the
next append is assigned offset 1. -/
theorem segment_maxed_rollover_witness :
    ((NewLog ⟨⟨1, 1024, 0⟩⟩).append ⟨[42], 0⟩).2.active.baseOffset = 1 ∧
    (((NewLog ⟨⟨1, 1024, 0⟩⟩).append ⟨[42], 0⟩).2.append ⟨[43], 0⟩).1 = some 1 := by
  have h := segment_maxed_rollover ((NewLog ⟨⟨1, 1024, 0⟩⟩).active)
    (NewLog ⟨⟨1, 1024, 0⟩⟩) ⟨[42], 0⟩ ⟨[43], 0⟩ 0 (by decide) (by decide) (by decide)
  exact ⟨h.2.2.1, h.2.2.2.2.2⟩

/-! ### C8: truncation below the high water mark and the active segment -/

/-- Counterexample to C8 as stated: on a log holding one record at offset 0
(`HighestOffset = 0`), `Truncate(0)` — so `lowest = HighestOffset`, within
the claim's `lowest ≤ HighestOffset` — removes the active segment: the
segment list becomes empty and the active segment is among the removed
ones. -/
theorem truncate_at_hwm_removes_active :
    (appendAll (NewLog ⟨⟨1024, 1024, 0⟩⟩) [[42]]).highestOffset = some 0 ∧
    ((appendAll (NewLog ⟨⟨1024, 1024, 0⟩⟩) [[42]]).truncate 0).1.segments = [] ∧
    (appendAll (NewLog ⟨⟨1024, 1024, 0⟩⟩) [[42]]).active
      ∈ ((appendAll (NewLog ⟨⟨1024, 1024, 0⟩⟩) [[42]]).truncate 0).2 := by
  decide

/-- C8 (amended): for `Truncate(lowest)` with `lowest` strictly below the
high water mark, the active segment (aliasing the last slot) is neither
removed nor modified: it stays in the list, stays last, and the active
pointer is untouched.  (At `lowest = HighestOffset` the active segment is
removed — see the counterexample.) -/
theorem truncate_below_hwm_preserves_active (l : Log) (lowest h : Nat)
    (halias : l.segments.getLast? = some l.active)
    (hh : l.highestOffset = some h) (hlt : lowest < h) :
    (l.truncate lowest).1.active = l.active ∧
    l.active ∈ (l.truncate lowest).1.segments ∧
    (l.truncate lowest).1.segments.getLast? = some l.active := by
  have hne : l.segments ≠ [] := by
    intro h0
    rw [h0] at halias
    simp at halias
  have hgl : l.segments.getLast hne = l.active := by
    rw [List.getLast?_eq_getLast _ hne] at halias
    exact Option.some_injective _ halias
  have hsplit : l.segments.dropLast ++ [l.active] = l.segments := by
    rw [← hgl]
    exact List.dropLast_append_getLast hne
  have hnext : lowest + 1 < l.active.nextOffset := by
    unfold Log.highestOffset at hh
    rw [halias] at hh
    change (if l.active.nextOffset = 0 then some 0
      else some (l.active.nextOffset - 1)) = some h at hh
    by_cases h0 : l.active.nextOffset = 0
    · rw [if_pos h0] at hh
      have : h = 0 := by simpa using hh.symm
      omega
    · rw [if_neg h0] at hh
      have : l.active.nextOffset - 1 = h := by simpa using hh
      omega
  have hfil : (l.truncate lowest).1.segments
      = l.segments.dropLast.filter (fun s => decide (lowest + 1 < s.nextOffset))
        ++ [l.active] := by
    show l.segments.filter _ = _
    conv_lhs => rw [← hsplit]
    rw [List.filter_append, List.filter_cons_of_pos (by simpa using hnext)]
    rfl
  refine ⟨rfl, ?_, ?_⟩
  · rw [hfil]
    exact List.mem_append_right _ (by simp)
  · rw [hfil]
    exact List.getLast?_concat _

/-- Closed witness for the amended C8: after two appends (offsets 0 and 1,
`HighestOffset = 1`), `Truncate(0)` leaves the active segment in place. -/
theorem truncate_below_hwm_preserves_active_witness :
    ((appendAll (NewLog ⟨⟨1024, 1024, 0⟩⟩) [[1], [2]]).truncate 0).1.active
      = (appendAll (NewLog ⟨⟨1024, 1024, 0⟩⟩) [[1], [2]]).active :=
  (truncate_below_hwm_preserves_active
    (appendAll (NewLog ⟨⟨1024, 1024, 0⟩⟩) [[1], [2]]) 0 1
    (by decide) (by decide) (by decide)).1

/-! ### C10: truncating everything leaves a dangling active pointer -/

/-- C10: from the reachable state with one appended record (offset 0,
`HighestOffset = 0`), `Truncate(0)` removes every segment including the
active one: the segment list becomes empty while the active pointer still
refers to the removed segment; `LowestOffset`/`HighestOffset` then index an
empty list (the Go code panics, modelled as `none`), and a subsequent
append goes to the removed segment (offset 1 is assigned, `nextOffset`
advances, but the segment list stays empty). -/
theorem truncate_all_dangling_active :
    ((appendAll (NewLog ⟨⟨1024, 1024, 0⟩⟩) [[42]]).highestOffset = some 0) ∧
    (((appendAll (NewLog ⟨⟨1024, 1024, 0⟩⟩) [[42]]).truncate 0).1.segments = []) ∧
    ((appendAll (NewLog ⟨⟨1024, 1024, 0⟩⟩) [[42]]).active
      ∈ ((appendAll (NewLog ⟨⟨1024, 1024, 0⟩⟩) [[42]]).truncate 0).2) ∧
    (((appendAll (NewLog ⟨⟨1024, 1024, 0⟩⟩) [[42]]).truncate 0).1.active
      = (appendAll (NewLog ⟨⟨1024, 1024, 0⟩⟩) [[42]]).active) ∧
    (((appendAll (NewLog ⟨⟨1024, 1024, 0⟩⟩) [[42]]).truncate 0).1.lowestOffset = none) ∧
    (((appendAll (NewLog ⟨⟨1024, 1024, 0⟩⟩) [[42]]).truncate 0).1.highestOffset = none) ∧
    ((((appendAll (NewLog ⟨⟨1024, 1024, 0⟩⟩) [[42]]).truncate 0).1.appendV [7]).1
      = some 1) ∧
    ((((appendAll (NewLog ⟨⟨1024, 1024, 0⟩⟩) [[42]]).truncate 0).1.appendV [7]).2.segments
      = []) ∧
    ((((appendAll (NewLog ⟨⟨1024, 1024, 0⟩⟩) [[42]]).truncate 0).1.appendV
        [7]).2.active.nextOffset = 2) := by
  decide

/-- Closed witness for C7: on a two-record log, `Truncate(0)` keeps the
active segment, whose `nextOffset` exceeds `lowest + 1`. -/
theorem truncate_removes_low_segments_witness :
    0 + 1 < (appendAll (NewLog ⟨⟨1024, 1024, 0⟩⟩) [[1], [2]]).active.nextOffset :=
  (truncate_removes_low_segments
    (appendAll (NewLog ⟨⟨1024, 1024, 0⟩⟩) [[1], [2]]) 0).1
    (appendAll (NewLog ⟨⟨1024, 1024, 0⟩⟩) [[1], [2]]).active (by decide)

/-! ### C9: segment creation probes the index -/

theorem index_read_neg_one (idx : Index) : idx.read (-1) = idx.entries.getLast? := by
  rcases idx with ⟨es, maxB⟩
  rcases es with _ | ⟨e, es'⟩
  · rfl
  · have hn : (Index.mk (e :: es') maxB).size = (es'.length + 1) * 12 := by
      simp [Index.size, entWidth]
    have hdiv : ((Index.mk (e :: es') maxB).size / entWidth) = es'.length + 1 := by
      rw [hn]; simp [entWidth]
    have hneg : ((-1 : Int) < 0) := by norm_num
    unfold Index.read
    rw [if_pos hneg, if_neg (by omega), hdiv]
    have hcond : ¬ (((Index.mk (e :: es') maxB).size : Int) ≤
        (((es'.length + 1 : Nat) : Int) - 1) * entWidth) := by
      rw [hn]
      have h12 : ((entWidth : Nat) : Int) = 12 := rfl
      push_cast
      nlinarith [es'.length]
    rw [if_neg hcond]
    have htn : ((((es'.length + 1 : Nat) : Int) - 1)).toNat = es'.length := by omega
    rw [htn, List.getLast?_eq_getElem?, List.get?_eq_getElem?]
    simp

/-- C9: `newSegment` probes the index with `read(-1)`: on an empty index the
probe fails and `nextOffset` is set to `baseOffset`; otherwise `nextOffset`
is `baseOffset + last_rel_offset + 1`.  The probe's end-of-data error is
consumed locally: `newSegment` is total and never fails because the index
is empty. -/
theorem newSegment_nextOffset (b : Nat) (st : Store) (idx : Index) (c : Config) :
    (idx.entries = [] → (newSegment b st idx c).nextOffset = b) ∧
    (∀ e, idx.entries.getLast? = some e →
      (newSegment b st idx c).nextOffset = b + e.1 + 1) ∧
    (idx.read (-1) = none → (newSegment b st idx c).nextOffset = b) ∧
    (∀ off pos, idx.read (-1) = some (off, pos) →
      (newSegment b st idx c).nextOffset = b + off + 1) := by
  refine ⟨?_, ?_, ?_, ?_⟩
  · intro he
    have h : idx.read (-1) = none := by rw [index_read_neg_one, he]; rfl
    simp [newSegment, h]
  · intro e he
    have h : idx.read (-1) = some e := by rw [index_read_neg_one, he]
    simp [newSegment, h]
  · intro h
    simp [newSegment, h]
  · intro off pos h
    simp [newSegment, h]

/-- Closed witness for C9: an index whose last entry has relative offset 3
yields `nextOffset = 10 + 3 + 1`, and an empty index yields
`nextOffset = baseOffset`. -/
theorem newSegment_nextOffset_witness :
    (newSegment 10 emptyStore ⟨[(0, 0), (3, 5)], 1024⟩ ⟨⟨1024, 1024, 0⟩⟩).nextOffset = 14 ∧
    (newSegment 10 emptyStore (emptyIndex 1024) ⟨⟨1024, 1024, 0⟩⟩).nextOffset = 10 :=
  ⟨(newSegment_nextOffset 10 emptyStore ⟨[(0, 0), (3, 5)], 1024⟩ ⟨⟨1024, 1024, 0⟩⟩).2.1
      (3, 5) rfl,
   (newSegment_nextOffset 10 emptyStore (emptyIndex 1024) ⟨⟨1024, 1024, 0⟩⟩).1 rfl⟩

end Dclog
